import Mathlib

/-!
Verification development for the Pipeline Process Supervisor of the
Coral-Inference repository.  The authoritative implementation is the Python
code embedded in `ANALYSIS_STREAM_MANAGER_PATCHES.md` (`PipelineStateManager`,
`StreamManagerConfig`, `AdaptiveTimeoutManager`, `IntelligentHealthChecker`,
`AsyncStreamManager.health_check_daemon_async`).  Components whose bodies are
elided in that document (the result-processing step of the health-check daemon
and the three-phase termination sequencer) are modelled from the specification,
as marked in their doc comments.

Timestamps and durations are modelled as rationals, Python `int` fields as
`Int`, Python dictionaries with optional keys as structures of `Option`
fields, and the health store dictionary as a function `String → Option
HealthRecord`.
-/

/-- Health record stored per pipeline in `PipelineStateManager.pipeline_health`.
The Python value is a dict whose keys may individually be absent (for example
`update_pipeline_health` may be called with a partial dict), so every field is
an `Option`. -/
structure HealthRecord where
  failures : Option Int
  last_check : Option ℚ
  marked_for_removal : Option Bool
  last_error : Option String
deriving DecidableEq

/-- The empty dict `\x7b\x7d` that `update_pipeline_health` inserts for an unknown
pipeline before merging. -/
def emptyHealth : HealthRecord :=
  { failures := none, last_check := none, marked_for_removal := none, last_error := none }

/-- Python `health.get('failures', 0)`. -/
def HealthRecord.getFailures (r : HealthRecord) : Int :=
  r.failures.getD 0

/-- Python `health.get('last_check', 0)`. -/
def HealthRecord.getLastCheck (r : HealthRecord) : ℚ :=
  r.last_check.getD 0

/-- Python `health.get('marked_for_removal', False)`. -/
def HealthRecord.getMarked (r : HealthRecord) : Bool :=
  r.marked_for_removal.getD false

/-- The state of `PipelineStateManager.pipeline_health`: a dictionary from
pipeline id to (possibly partial) health record. -/
abbrev HealthStore : Type := String → Option HealthRecord

/-- `PipelineStateManager.get_pipeline_health`: returns the stored dict, or the
default dict with `failures = 0`, `last_check = time.time()` (the current
time, passed here as `now`) and `marked_for_removal = False` when the id is
absent.  Total: it never errors. -/
def get_pipeline_health (store : HealthStore) (now : ℚ) (pid : String) : HealthRecord :=
  (store pid).getD
    { failures := some 0, last_check := some now,
      marked_for_removal := some false, last_error := none }

/-- Python `dict.update`: a key present in the update overwrites, an absent key
keeps the old value. -/
def updField {α : Type} (old upd : Option α) : Option α :=
  match upd with
  | some v => some v
  | none => old

/-- Merge of `dict.update(health_data)` on a health record. -/
def HealthRecord.updateWith (old upd : HealthRecord) : HealthRecord :=
  { failures := updField old.failures upd.failures,
    last_check := updField old.last_check upd.last_check,
    marked_for_removal := updField old.marked_for_removal upd.marked_for_removal,
    last_error := updField old.last_error upd.last_error }

/-- `PipelineStateManager.update_pipeline_health`: inserts an empty dict when
the id is absent, then merges `health_data` into it. -/
def update_pipeline_health (store : HealthStore) (pid : String) (health_data : HealthRecord) :
    HealthStore :=
  fun k =>
    if k = pid then some (((store pid).getD emptyHealth).updateWith health_data)
    else store k

/-- `PipelineStateManager.mark_for_removal`: sets `marked_for_removal = True`
only when the id is already present in the dictionary; otherwise it is a
no-op. -/
def mark_for_removal (store : HealthStore) (pid : String) : HealthStore :=
  fun k =>
    if k = pid then
      match store pid with
      | some r => some { r with marked_for_removal := some true }
      | none => none
    else store k

/-- `PipelineStateManager.cleanup_pipeline`: `dict.pop(pipeline_id, None)`. -/
def cleanup_pipeline (store : HealthStore) (pid : String) : HealthStore :=
  fun k => if k = pid then none else store k

/-- `StreamManagerConfig`: the five configuration fields read in
`__init__`. -/
structure StreamManagerConfig where
  QUEUE_TIMEOUT : ℚ
  HEALTH_CHECK_TIMEOUT : ℚ
  MAX_HEALTH_FAILURES : Int
  PROCESS_JOIN_TIMEOUT : ℚ
  TERMINATION_GRACE_PERIOD : ℚ
deriving DecidableEq

/-- Environment overrides for the five `os.getenv` reads in
`StreamManagerConfig.__init__`; the `float(...)` / `int(...)` parsing of the
raw environment strings is abstracted as already-parsed optional values. -/
structure EnvOverrides where
  queue_timeout : Option ℚ
  health_check_timeout : Option ℚ
  max_health_failures : Option Int
  process_join_timeout : Option ℚ
  termination_grace_period : Option ℚ

/-- No environment variable set: every `os.getenv` falls back to its
default. -/
def noOverrides : EnvOverrides :=
  { queue_timeout := none, health_check_timeout := none, max_health_failures := none,
    process_join_timeout := none, termination_grace_period := none }

/-- `StreamManagerConfig.__init__` field loading: each field is the override
when present and the documented default otherwise. -/
def loadStreamManagerConfig (env : EnvOverrides) : StreamManagerConfig :=
  { QUEUE_TIMEOUT := env.queue_timeout.getD 10,
    HEALTH_CHECK_TIMEOUT := env.health_check_timeout.getD 5,
    MAX_HEALTH_FAILURES := env.max_health_failures.getD 3,
    PROCESS_JOIN_TIMEOUT := env.process_join_timeout.getD 30,
    TERMINATION_GRACE_PERIOD := env.termination_grace_period.getD 5 }

/-- `StreamManagerConfig.validate`: raises `ValueError` (here `Except.error`)
on the three checks it performs, in source order.  Note it checks only
`QUEUE_TIMEOUT`, `HEALTH_CHECK_TIMEOUT` and `MAX_HEALTH_FAILURES`. -/
def StreamManagerConfig.validate (c : StreamManagerConfig) : Except String Unit :=
  if c.QUEUE_TIMEOUT ≤ 0 then Except.error "QUEUE_TIMEOUT must be positive"
  else if c.HEALTH_CHECK_TIMEOUT ≤ 0 then Except.error "HEALTH_CHECK_TIMEOUT must be positive"
  else if c.MAX_HEALTH_FAILURES < 1 then Except.error "MAX_HEALTH_FAILURES must be at least 1"
  else Except.ok ()

/-- The default configuration (all five documented defaults). -/
def defaultConfig : StreamManagerConfig :=
  { QUEUE_TIMEOUT := 10, HEALTH_CHECK_TIMEOUT := 5, MAX_HEALTH_FAILURES := 3,
    PROCESS_JOIN_TIMEOUT := 30, TERMINATION_GRACE_PERIOD := 5 }

/-- `IntelligentHealthChecker.get_check_interval`: tiered interval from the
current failure count.  `self.base_interval` is a field (10.0 at
construction); the middle tier compares against the Python floor division
`MAX_HEALTH_FAILURES // 2`, modelled by `Int.fdiv`. -/
def get_check_interval (cfg : StreamManagerConfig) (base_interval : ℚ)
    (store : HealthStore) (now : ℚ) (pid : String) : ℚ :=
  let failure_count := (get_pipeline_health store now pid).getFailures
  if failure_count = 0 then base_interval * 2
  else if failure_count < Int.fdiv cfg.MAX_HEALTH_FAILURES 2 then base_interval
  else base_interval / 2

/-- `IntelligentHealthChecker.should_check_now`: due exactly when the time
since the recorded `last_check` has reached the tiered interval.  Note the
body reads the health record and decides purely from `last_check` and the
interval; it does not consult `marked_for_removal`. -/
def should_check_now (cfg : StreamManagerConfig) (base_interval : ℚ)
    (store : HealthStore) (now : ℚ) (pid : String) : Bool :=
  let health := get_pipeline_health store now pid
  let last_check := health.getLastCheck
  let interval := get_check_interval cfg base_interval store now pid
  decide (now - last_check ≥ interval)

/-- `AsyncStreamManager.health_check_daemon_async` selection step: one cycle
iterates over the process table and creates a health-check task for every
pipeline for which `should_check_now` holds. -/
def health_check_candidates (cfg : StreamManagerConfig) (base_interval : ℚ)
    (table : List String) (store : HealthStore) (now : ℚ) : List String :=
  table.filter (fun pid => should_check_now cfg base_interval store now pid)

/-- Modelled from the spec: the on-failure branch of the Adaptive Health
Checker (the result-processing body of the health-check daemon is elided in
the source document).  On a failed check it increments `consecutiveFailures`,
updates `lastCheckedAt` and `lastError` through the store, and when the new
count reaches `maxConsecutiveFailures` it marks the record for removal. -/
def on_health_check_failure (cfg : StreamManagerConfig) (store : HealthStore)
    (now : ℚ) (err : String) (pid : String) : HealthStore :=
  let cur := (get_pipeline_health store now pid).getFailures
  let store1 := update_pipeline_health store pid
    { failures := some (cur + 1), last_check := some now,
      marked_for_removal := none, last_error := some err }
  if cfg.MAX_HEALTH_FAILURES ≤ cur + 1 then mark_for_removal store1 pid else store1

/-- A run of `k` consecutive failed health checks for pipeline `pid`, the
`i`-th observed at time `t i`. -/
def iterateFailures (cfg : StreamManagerConfig) (t : Nat → ℚ) (err : String)
    (pid : String) (store : HealthStore) : Nat → HealthStore
  | 0 => store
  | k + 1 => on_health_check_failure cfg (iterateFailures cfg t err pid store k) (t k) err pid

/-- One record of `AdaptiveTimeoutManager.operation_history`. -/
structure OpRecord where
  duration : ℚ
  success : Bool
  timestamp : ℚ
deriving DecidableEq

/-- State of `AdaptiveTimeoutManager`: per-type rolling history (a deque of
max length 100, newest last) and the multiplier dictionary.  The dictionary
holds exactly the keys it was initialised with, so it is a partial map. -/
structure AdaptiveTimeoutManager where
  operation_history : String → List OpRecord
  timeout_multipliers : String → Option ℚ

/-- `AdaptiveTimeoutManager.__init__`: empty histories (the defaultdict
default) and multiplier 1.0 for the three known operation types. -/
def initTimeoutManager : AdaptiveTimeoutManager :=
  { operation_history := fun _ => [],
    timeout_multipliers := fun op =>
      if op = "health_check" ∨ op = "command_execution" ∨ op = "queue_operation"
      then some 1 else none }

/-- `deque(maxlen=100).append`: drops the oldest element once full. -/
def pushHistory (l : List OpRecord) (r : OpRecord) : List OpRecord :=
  let l2 := l ++ [r]
  if l2.length ≤ 100 then l2 else l2.drop (l2.length - 100)

/-- Python `list(history)[-10:]`: the last (up to) 10 elements. -/
def lastTen (l : List OpRecord) : List OpRecord :=
  l.drop (l.length - 10)

/-- `AdaptiveTimeoutManager._update_timeout_multiplier`: no change below 10
recorded operations; otherwise the failure rate over the last 10 moves the
multiplier up (clamped at 2.0) above 30% failures and down (clamped at 0.5)
below 10% failures.  (On an operation type absent from the multiplier dict the
Python subscript raises `KeyError` before assigning, leaving the dictionary
unchanged, which `Option.map` on `none` reproduces.) -/
def update_timeout_multiplier (m : AdaptiveTimeoutManager) (op : String) :
    AdaptiveTimeoutManager :=
  let history := m.operation_history op
  if history.length < 10 then m
  else
    let recent_failures : ℚ := ((lastTen history).filter (fun r => !r.success)).length
    let failure_rate := recent_failures / 10
    if failure_rate > 3 / 10 then
      { m with timeout_multipliers := fun k =>
          if k = op then (m.timeout_multipliers op).map (fun v => min 2 (v * (11 / 10)))
          else m.timeout_multipliers k }
    else if failure_rate < 1 / 10 then
      { m with timeout_multipliers := fun k =>
          if k = op then (m.timeout_multipliers op).map (fun v => max (1 / 2) (v * (19 / 20)))
          else m.timeout_multipliers k }
    else m

/-- `AdaptiveTimeoutManager.record_operation`: append the outcome to the
type's history, then update that type's multiplier. -/
def record_operation (m : AdaptiveTimeoutManager) (op : String)
    (duration : ℚ) (success : Bool) (now : ℚ) : AdaptiveTimeoutManager :=
  update_timeout_multiplier
    { m with operation_history := fun k =>
        if k = op then
          pushHistory (m.operation_history k) ⟨duration, success, now⟩
        else m.operation_history k }
    op

/-- The base timeout `getattr(self.base_config, f"..._TIMEOUT", 10.0)` looks
up the attribute named by the upper-cased operation type followed by
`_TIMEOUT`.  Only three config attributes end in `_TIMEOUT`, so (stating the
upper-casing in terms of the lower-case operation-type names) exactly the
types `queue`, `health_check` and `process_join` resolve to an attribute;
every other operation type falls back to 10.0. -/
def baseTimeout (cfg : StreamManagerConfig) (op : String) : ℚ :=
  if op = "queue" then cfg.QUEUE_TIMEOUT
  else if op = "health_check" then cfg.HEALTH_CHECK_TIMEOUT
  else if op = "process_join" then cfg.PROCESS_JOIN_TIMEOUT
  else 10

/-- `AdaptiveTimeoutManager.get_timeout`: base timeout times the current
multiplier (1.0 for an unknown operation type). -/
def get_timeout (cfg : StreamManagerConfig) (m : AdaptiveTimeoutManager) (op : String) : ℚ :=
  baseTimeout cfg op * (m.timeout_multipliers op).getD 1

/-- A sequence of recorded operations applied in order. -/
def applyOps (m : AdaptiveTimeoutManager) (ops : List (String × ℚ × Bool × ℚ)) :
    AdaptiveTimeoutManager :=
  ops.foldl (fun acc o => record_operation acc o.1 o.2.1 o.2.2.1 o.2.2.2) m

/-- Termination phase per worker (spec section 3): forward-only enum. -/
inductive TermPhase
  | NONE
  | MARKED
  | SIGNALED
  | FORCED
  | DONE
deriving DecidableEq

/-- Position of a phase in the forward order NONE < MARKED < SIGNALED <
FORCED < DONE. -/
def phaseRank : TermPhase → Nat
  | TermPhase.NONE => 0
  | TermPhase.MARKED => 1
  | TermPhase.SIGNALED => 2
  | TermPhase.FORCED => 3
  | TermPhase.DONE => 4

/-- Forward order on termination phases. -/
def phaseLe (a b : TermPhase) : Prop :=
  phaseRank a ≤ phaseRank b

instance (a b : TermPhase) : Decidable (phaseLe a b) := by
  unfold phaseLe; infer_instance

/-- A phase assignment event for one worker during shutdown. -/
def applyPhaseEvent (s : String → TermPhase) (e : String × TermPhase) :
    String → TermPhase :=
  fun w => if w = e.1 then e.2 else s w

/-- Modelled from the spec: the per-worker SIGNALED/FORCED/DONE drive of the
Termination Sequencer (the body of `patched_execute_termination` is not in the
source document, only its Phase 1/2/3 call-chain diagram).  A worker that
acknowledges the TERMINATE within the grace period goes SIGNALED then DONE;
one that does not is FORCED before DONE. -/
def driveEvents (acks : String → Bool) (w : String) : List (String × TermPhase) :=
  if acks w then [(w, TermPhase.SIGNALED), (w, TermPhase.DONE)]
  else [(w, TermPhase.SIGNALED), (w, TermPhase.FORCED), (w, TermPhase.DONE)]

/-- Modelled from the spec: Phase 1 of fleet shutdown marks every worker in
the table for removal before anything else happens. -/
def markEvents (fleet : List String) : List (String × TermPhase) :=
  fleet.map (fun w => (w, TermPhase.MARKED))

/-- Concatenation of the per-worker drive blocks, in table order. -/
def driveAllEvents (acks : String → Bool) : List String → List (String × TermPhase)
  | [] => []
  | w :: rest => driveEvents acks w ++ driveAllEvents acks rest

/-- Modelled from the spec: the full fleet-shutdown event sequence — mark the
whole table first, then drive each worker through SIGNALED/FORCED/DONE. -/
def shutdownEvents (fleet : List String) (acks : String → Bool) :
    List (String × TermPhase) :=
  markEvents fleet ++ driveAllEvents acks fleet

/-- The observed trace of fleet shutdown: every intermediate phase
assignment, starting from all workers at NONE. -/
def shutdownTrace (fleet : List String) (acks : String → Bool) :
    List (String → TermPhase) :=
  (shutdownEvents fleet acks).scanl applyPhaseEvent (fun _ => TermPhase.NONE)

/-- Supervisor state for `shutdownAll`: the worker table, each worker's
termination phase, and how many kill attempts each worker has received. -/
structure SupervisorState where
  table : List String
  phases : String → TermPhase
  kills : String → Nat

/-- Modelled from the spec: driving one worker of the table to DONE during
`shutdownAll`.  A worker already DONE is only dropped from the table — it is
not killed again; otherwise it receives exactly one kill attempt, reaches
DONE, and its handle is removed from the table. -/
def shutdownWorker (s : SupervisorState) (w : String) : SupervisorState :=
  if s.phases w = TermPhase.DONE then { s with table := s.table.erase w }
  else
    { table := s.table.erase w,
      phases := fun k => if k = w then TermPhase.DONE else s.phases k,
      kills := fun k => if k = w then s.kills k + 1 else s.kills k }

/-- Modelled from the spec: `shutdownAll` snapshots the worker table and
drives every worker in the snapshot to DONE. -/
def shutdownAll (s : SupervisorState) : SupervisorState :=
  s.table.foldl shutdownWorker s

/-- The empty health store (no pipeline ever written). -/
def emptyStore : HealthStore := fun _ => none

/-- C8: when no environment override is supplied, the loaded configuration
equals the documented defaults — queueTimeout 10 s, healthCheckTimeout 5 s,
maxConsecutiveFailures 3, processJoinTimeout 30 s, terminationGracePeriod
5 s. -/
theorem claim_C8_default_config :
    loadStreamManagerConfig noOverrides = defaultConfig := by
  rfl

/-- C7: `get_pipeline_health` never fails: for an absent id it returns a
zero-value record (failures 0, not marked for removal, and the default
`last_check` set to the current time), and for a present id it returns the
stored record. -/
theorem claim_C7_get_never_fails (store : HealthStore) (now : ℚ) (pid : String) :
    (store pid = none →
      (get_pipeline_health store now pid).getFailures = 0 ∧
      (get_pipeline_health store now pid).getMarked = false ∧
      (get_pipeline_health store now pid).getLastCheck = now) ∧
    (∀ r, store pid = some r → get_pipeline_health store now pid = r) := by
  constructor
  · intro h
    simp [get_pipeline_health, h, HealthRecord.getFailures, HealthRecord.getMarked,
      HealthRecord.getLastCheck]
  · intro r h
    simp [get_pipeline_health, h]

/-- Witness for C7 at concrete inputs: the empty store on one side, a store
holding a concrete record on the other. -/
theorem claim_C7_get_never_fails_witness :
    (get_pipeline_health emptyStore 7 "w").getFailures = 0 ∧
    get_pipeline_health (fun _ => some emptyHealth) 7 "w" = emptyHealth := by
  exact ⟨((claim_C7_get_never_fails emptyStore 7 "w").1 rfl).1,
    (claim_C7_get_never_fails (fun _ => some emptyHealth) 7 "w").2 emptyHealth rfl⟩

/-- C9: `mark_for_removal` on an id that was never written is a complete
no-op: the store is unchanged and a subsequent get still reports the id as
not marked for removal. -/
theorem claim_C9_mark_absent_noop (store : HealthStore) (pid : String) (now : ℚ)
    (h : store pid = none) :
    mark_for_removal store pid = store ∧
    (get_pipeline_health (mark_for_removal store pid) now pid).getMarked = false := by
  have hs : mark_for_removal store pid = store := by
    funext k
    unfold mark_for_removal
    by_cases hk : k = pid
    · subst hk; simp [h]
    · simp [hk]
  refine ⟨hs, ?_⟩
  rw [hs]
  simp [get_pipeline_health, h, HealthRecord.getMarked]

/-- Witness for C9 on the empty store. -/
theorem claim_C9_mark_absent_noop_witness :
    mark_for_removal emptyStore "w" = emptyStore ∧
    (get_pipeline_health (mark_for_removal emptyStore "w") 3 "w").getMarked = false := by
  exact claim_C9_mark_absent_noop emptyStore "w" 3 rfl

/-- A configuration whose process-join timeout is negative but which
`validate` nevertheless accepts. -/
def badJoinConfig : StreamManagerConfig :=
  loadStreamManagerConfig
    { noOverrides with process_join_timeout := some (-1) }

/-- C3 counterexample: `validate` does not reject a configuration with a
non-positive `PROCESS_JOIN_TIMEOUT` (and likewise would not reject a
non-positive `TERMINATION_GRACE_PERIOD`): the claim that every configuration
passing validation has all durations positive is false. -/
theorem claim_C3_counterexample :
    badJoinConfig.validate = Except.ok () ∧ ¬ (0 < badJoinConfig.PROCESS_JOIN_TIMEOUT) := by
  constructor
  · rfl
  · decide

/-- C3 amended: validation rejects exactly the configurations with
`QUEUE_TIMEOUT ≤ 0`, `HEALTH_CHECK_TIMEOUT ≤ 0` or `MAX_HEALTH_FAILURES < 1`;
`PROCESS_JOIN_TIMEOUT` and `TERMINATION_GRACE_PERIOD` are not validated. -/
theorem claim_C3_amended_validate_iff (c : StreamManagerConfig) :
    c.validate = Except.ok () ↔
      (0 < c.QUEUE_TIMEOUT ∧ 0 < c.HEALTH_CHECK_TIMEOUT ∧ 1 ≤ c.MAX_HEALTH_FAILURES) := by
  unfold StreamManagerConfig.validate
  split_ifs with h1 h2 h3
  · constructor
    · intro hc; exact absurd hc (by simp)
    · intro hc; exact absurd hc.1 (not_lt.mpr h1)
  · constructor
    · intro hc; exact absurd hc (by simp)
    · intro hc; exact absurd hc.2.1 (not_lt.mpr h2)
  · constructor
    · intro hc; exact absurd hc (by simp)
    · intro hc; exact absurd hc.2.2 (not_le.mpr h3)
  · constructor
    · intro _
      exact ⟨lt_of_not_le h1, lt_of_not_le h2, le_of_not_lt h3⟩
    · intro _; rfl

/-- A store whose only pipeline is marked for removal, with an old
`last_check` and the failure count at the threshold. -/
def markedStore : HealthStore :=
  fun k => if k = "w" then
    some { failures := some 3, last_check := some 0,
           marked_for_removal := some true, last_error := none }
  else none

/-- C2 counterexample: a pipeline whose record has `marked_for_removal =
True` is still selected by the health-check cycle — `should_check_now`
decides purely from `last_check` and the interval and never consults the
removal flag, so the claimed invariant fails. -/
theorem claim_C2_counterexample :
    (get_pipeline_health markedStore 100 "w").getMarked = true ∧
    "w" ∈ health_check_candidates defaultConfig 10 ["w"] markedStore 100 := by
  have hfd : Int.fdiv 3 2 = 1 := rfl
  have hint : get_check_interval defaultConfig 10 markedStore 100 "w" = 5 := by
    norm_num [get_check_interval, get_pipeline_health, markedStore,
      HealthRecord.getFailures, defaultConfig, hfd]
  have hdue : should_check_now defaultConfig 10 markedStore 100 "w" = true := by
    simp only [should_check_now, hint]
    norm_num [get_pipeline_health, markedStore, HealthRecord.getLastCheck]
  constructor
  · rfl
  · simp [health_check_candidates, List.mem_filter, hdue]

/-- C2 amended: in every cycle a worker is selected for a STATUS check
exactly when it is in the process table and the time since its recorded
`last_check` has reached its tiered interval; `marked_for_removal` plays no
part in the selection (checks stop only once the worker is removed from the
process table). -/
theorem claim_C2_amended_selection (cfg : StreamManagerConfig) (base : ℚ)
    (table : List String) (store : HealthStore) (now : ℚ) (pid : String) :
    pid ∈ health_check_candidates cfg base table store now ↔
      pid ∈ table ∧
        now - (get_pipeline_health store now pid).getLastCheck ≥
          get_check_interval cfg base store now pid := by
  simp [health_check_candidates, should_check_now, List.mem_filter]

/-- The intervals exactly as the claim words them, with `half of
maxConsecutiveFailures` read as the exact half: 2× base at zero failures,
base below half the threshold, half base above half the threshold. -/
def specThreeTierClaim (cfg : StreamManagerConfig) (base : ℚ) : Prop :=
  ∀ (store : HealthStore) (now : ℚ) (pid : String),
    ((get_pipeline_health store now pid).getFailures = 0 →
      get_check_interval cfg base store now pid = 2 * base) ∧
    (0 < (get_pipeline_health store now pid).getFailures →
      ((get_pipeline_health store now pid).getFailures : ℚ) < (cfg.MAX_HEALTH_FAILURES : ℚ) / 2 →
      get_check_interval cfg base store now pid = base) ∧
    ((cfg.MAX_HEALTH_FAILURES : ℚ) / 2 < ((get_pipeline_health store now pid).getFailures : ℚ) →
      get_check_interval cfg base store now pid = base / 2)

/-- A store whose only pipeline has exactly one recorded failure. -/
def oneFailureStore : HealthStore :=
  fun k => if k = "w" then
    some { failures := some 1, last_check := some 0,
           marked_for_removal := none, last_error := none }
  else none

/-- C4 counterexample: with the default threshold 3, a worker with 1 failure
has a count strictly below half the threshold (1 < 3/2), so the claim
demands the base interval; the code compares against the floor `3 // 2 = 1`
and returns half the base interval instead. -/
theorem claim_C4_counterexample : ¬ specThreeTierClaim defaultConfig 10 := by
  intro h
  have h2 := (h oneFailureStore 0 "w").2.1 (by decide)
    (by
      have hfc : (get_pipeline_health oneFailureStore 0 "w").getFailures = 1 := by decide
      rw [hfc]
      norm_num [defaultConfig])
  have h5 : get_check_interval defaultConfig 10 oneFailureStore 0 "w" = 5 := by
    have hfd : Int.fdiv 3 2 = 1 := rfl
    norm_num [get_check_interval, get_pipeline_health, oneFailureStore,
      HealthRecord.getFailures, defaultConfig, hfd]
  rw [h5] at h2
  exact absurd h2 (by norm_num)

/-- Config with threshold 5, so that the middle tier (count below `5 // 2 =
2`) is inhabited. -/
def fiveFailConfig : StreamManagerConfig :=
  { defaultConfig with MAX_HEALTH_FAILURES := 5 }

/-- C4 amended: the due-interval has exactly three tiers keyed to the
integer floor division `MAX_HEALTH_FAILURES // 2`: twice the base interval
at zero failures, the base interval when the count is positive and below the
floor of half the threshold, half the base interval when the count is at
least that floor; and a worker is due in a cycle exactly when the time since
its `last_check` has reached this interval. -/
theorem claim_C4_amended_tiers (cfg : StreamManagerConfig) (base : ℚ)
    (store : HealthStore) (now : ℚ) (pid : String) :
    ((get_pipeline_health store now pid).getFailures = 0 →
      get_check_interval cfg base store now pid = base * 2) ∧
    ((get_pipeline_health store now pid).getFailures ≠ 0 →
      (get_pipeline_health store now pid).getFailures < Int.fdiv cfg.MAX_HEALTH_FAILURES 2 →
      get_check_interval cfg base store now pid = base) ∧
    ((get_pipeline_health store now pid).getFailures ≠ 0 →
      Int.fdiv cfg.MAX_HEALTH_FAILURES 2 ≤ (get_pipeline_health store now pid).getFailures →
      get_check_interval cfg base store now pid = base / 2) ∧
    (should_check_now cfg base store now pid = true ↔
      now - (get_pipeline_health store now pid).getLastCheck ≥
        get_check_interval cfg base store now pid) := by
  refine ⟨?_, ?_, ?_, ?_⟩
  · intro h0
    simp [get_check_interval, h0]
  · intro hne hlt
    simp [get_check_interval, hne, hlt]
  · intro hne hge
    simp [get_check_interval, hne, not_lt.mpr hge]
  · simp [should_check_now]

/-- Witness for C4 amended: each tier evaluated at a concrete store, and the
due rule checked on a concrete record. -/
theorem claim_C4_amended_tiers_witness :
    get_check_interval defaultConfig 10 emptyStore 0 "w" = 10 * 2 ∧
    get_check_interval fiveFailConfig 10 oneFailureStore 0 "w" = 10 ∧
    get_check_interval defaultConfig 10 oneFailureStore 0 "w" = 10 / 2 := by
  exact ⟨(claim_C4_amended_tiers defaultConfig 10 emptyStore 0 "w").1 (by decide),
    (claim_C4_amended_tiers fiveFailConfig 10 oneFailureStore 0 "w").2.1 (by decide) (by decide),
    (claim_C4_amended_tiers defaultConfig 10 oneFailureStore 0 "w").2.2.1 (by decide) (by decide)⟩

/-- After `k + 1` consecutive failures starting from a pipeline the store has
never seen, the stored record carries the failure count `k + 1`, the time of
the last failed check, the error text, and the removal mark exactly once the
count has reached the threshold. -/
theorem iterateFailures_record (cfg : StreamManagerConfig) (t : Nat → ℚ) (err pid : String)
    (store : HealthStore) (hfresh : store pid = none) :
    ∀ k : Nat,
      iterateFailures cfg t err pid store (k + 1) pid =
        some { failures := some ((k : Int) + 1), last_check := some (t k),
               marked_for_removal :=
                 if cfg.MAX_HEALTH_FAILURES ≤ (k : Int) + 1 then some true else none,
               last_error := some err } := by
  intro k
  induction k with
  | zero =>
    show (on_health_check_failure cfg store (t 0) err pid) pid = _
    have hcur : (get_pipeline_health store (t 0) pid).getFailures = 0 := by
      simp [get_pipeline_health, hfresh, HealthRecord.getFailures]
    unfold on_health_check_failure
    rw [hcur]
    by_cases hm : cfg.MAX_HEALTH_FAILURES ≤ (0 : Int) + 1
    · have hm1 : cfg.MAX_HEALTH_FAILURES ≤ 1 := by omega
      rw [if_pos hm]
      simp [mark_for_removal, update_pipeline_health, hfresh, emptyHealth,
        HealthRecord.updateWith, updField, hm1]
    · have hm1 : ¬ cfg.MAX_HEALTH_FAILURES ≤ 1 := by omega
      rw [if_neg hm]
      simp [update_pipeline_health, hfresh, emptyHealth, HealthRecord.updateWith,
        updField, hm1]
  | succ n ih =>
    show (on_health_check_failure cfg (iterateFailures cfg t err pid store (n + 1))
      (t (n + 1)) err pid) pid = _
    have hcur : (get_pipeline_health (iterateFailures cfg t err pid store (n + 1))
        (t (n + 1)) pid).getFailures = (n : Int) + 1 := by
      simp [get_pipeline_health, ih, HealthRecord.getFailures]
    unfold on_health_check_failure
    rw [hcur]
    have hc : ((n + 1 : Nat) : Int) = (n : Int) + 1 := by push_cast; ring
    rw [hc]
    by_cases hm : cfg.MAX_HEALTH_FAILURES ≤ (n : Int) + 1 + 1
    · rw [if_pos hm, if_pos hm]
      simp [mark_for_removal, update_pipeline_health, ih, HealthRecord.updateWith, updField]
    · rw [if_neg hm, if_neg hm]
      have hmn : ¬ cfg.MAX_HEALTH_FAILURES ≤ (n : Int) + 1 := by omega
      simp [update_pipeline_health, ih, HealthRecord.updateWith, updField, hmn]

/-- C1: for a worker the store has never seen, a run of consecutive failed
health checks marks the record for removal exactly when the failure count
first reaches `MAX_HEALTH_FAILURES`: the record is unmarked after any
shorter run and marked from the Nth failure on. -/
theorem claim_C1_escalation (cfg : StreamManagerConfig) (t : Nat → ℚ) (err pid : String)
    (store : HealthStore) (hfresh : store pid = none)
    (hN : 1 ≤ cfg.MAX_HEALTH_FAILURES) (k : Nat) :
    ((k : Int) < cfg.MAX_HEALTH_FAILURES →
      (get_pipeline_health (iterateFailures cfg t err pid store k) (t k) pid).getMarked
        = false) ∧
    (cfg.MAX_HEALTH_FAILURES ≤ (k : Int) →
      (get_pipeline_health (iterateFailures cfg t err pid store k) (t k) pid).getMarked
        = true) := by
  constructor
  · intro hk
    cases k with
    | zero =>
      simp [iterateFailures, get_pipeline_health, hfresh, HealthRecord.getMarked]
    | succ n =>
      have h := iterateFailures_record cfg t err pid store hfresh n
      have hm : ¬ cfg.MAX_HEALTH_FAILURES ≤ (n : Int) + 1 := by
        push_cast at hk; omega
      simp [get_pipeline_health, h, hm, HealthRecord.getMarked]
  · intro hk
    have hkpos : k ≠ 0 := by
      rintro rfl
      push_cast at hk
      omega
    obtain ⟨n, rfl⟩ := Nat.exists_eq_succ_of_ne_zero hkpos
    have h := iterateFailures_record cfg t err pid store hfresh n
    have hm : cfg.MAX_HEALTH_FAILURES ≤ (n : Int) + 1 := by
      push_cast at hk; omega
    simp [get_pipeline_health, h, hm, HealthRecord.getMarked]

/-- Witness for C1 with the default threshold 3: unmarked after 2 failures,
marked after the 3rd. -/
theorem claim_C1_escalation_witness :
    (get_pipeline_health (iterateFailures defaultConfig (fun _ => 0) "e" "w" emptyStore 2)
      0 "w").getMarked = false ∧
    (get_pipeline_health (iterateFailures defaultConfig (fun _ => 0) "e" "w" emptyStore 3)
      0 "w").getMarked = true := by
  exact ⟨(claim_C1_escalation defaultConfig (fun _ => 0) "e" "w" emptyStore rfl
      (by decide) 2).1 (by decide),
    (claim_C1_escalation defaultConfig (fun _ => 0) "e" "w" emptyStore rfl
      (by decide) 3).2 (by decide)⟩

/-- Every multiplier stored in the dictionary lies in the clamp range
[0.5, 2.0]. -/
def multOK (m : AdaptiveTimeoutManager) : Prop :=
  ∀ op v, m.timeout_multipliers op = some v → 1 / 2 ≤ v ∧ v ≤ 2

/-- The initial multipliers (all 1.0) are in range. -/
theorem multOK_init : multOK initTimeoutManager := by
  intro op v h
  unfold initTimeoutManager at h
  dsimp only at h
  split at h
  · cases h; norm_num
  · cases h

/-- `_update_timeout_multiplier` keeps every multiplier in [0.5, 2.0]: the
upward move is clamped by `min 2.0`, the downward move by `max 0.5`, and the
moves themselves cannot jump past the opposite clamp. -/
theorem multOK_update (m : AdaptiveTimeoutManager) (op : String) (h : multOK m) :
    multOK (update_timeout_multiplier m op) := by
  simp only [update_timeout_multiplier]
  split_ifs with h1 h2 h3
  · exact h
  · intro op' v' hv'
    by_cases hop : op' = op
    · subst hop
      simp only [if_pos rfl] at hv'
      obtain ⟨w, hw, rfl⟩ := Option.map_eq_some'.mp hv'
      obtain ⟨hw1, hw2⟩ := h op' w hw
      constructor
      · exact le_min (by norm_num) (by linarith)
      · exact min_le_left _ _
    · simp only [if_neg hop] at hv'
      exact h op' v' hv'
  · intro op' v' hv'
    by_cases hop : op' = op
    · subst hop
      simp only [if_pos rfl] at hv'
      obtain ⟨w, hw, rfl⟩ := Option.map_eq_some'.mp hv'
      obtain ⟨hw1, hw2⟩ := h op' w hw
      constructor
      · exact le_max_left _ _
      · exact max_le (by norm_num) (by linarith)
    · simp only [if_neg hop] at hv'
      exact h op' v' hv'
  · exact h

/-- `record_operation` keeps every multiplier in [0.5, 2.0]. -/
theorem multOK_record (m : AdaptiveTimeoutManager) (op : String) (d : ℚ) (s : Bool)
    (now : ℚ) (h : multOK m) : multOK (record_operation m op d s now) := by
  unfold record_operation
  exact multOK_update _ op (fun op' v hv => h op' v hv)

/-- Any sequence of recorded operations keeps every multiplier in
[0.5, 2.0]. -/
theorem multOK_applyOps (ops : List (String × ℚ × Bool × ℚ)) :
    ∀ m : AdaptiveTimeoutManager, multOK m → multOK (applyOps m ops) := by
  induction ops with
  | nil => intro m h; exact h
  | cons o rest ih =>
    intro m h
    exact ih _ (multOK_record m o.1 o.2.1 o.2.2.1 o.2.2.2 h)

/-- `record_operation` touches only the history of the recorded type, by
appending one record. -/
theorem record_operation_history_apply (m : AdaptiveTimeoutManager) (o : String)
    (d : ℚ) (s : Bool) (now : ℚ) (k : String) :
    (record_operation m o d s now).operation_history k =
      if k = o then pushHistory (m.operation_history k) ⟨d, s, now⟩
      else m.operation_history k := by
  simp only [record_operation, update_timeout_multiplier]
  split_ifs <;> simp_all

/-- Appending to a history below the deque bound grows it by one. -/
theorem pushHistory_length_short (l : List OpRecord) (r : OpRecord)
    (h : l.length + 1 ≤ 100) : (pushHistory l r).length = l.length + 1 := by
  simp only [pushHistory]
  rw [if_pos (by simp only [List.length_append, List.length_singleton]; omega)]
  simp

/-- `record_operation` leaves the multiplier of every other operation type
untouched. -/
theorem record_operation_mult_other (m : AdaptiveTimeoutManager) (o : String)
    (d : ℚ) (s : Bool) (now : ℚ) (k : String) (hk : ¬ k = o) :
    (record_operation m o d s now).timeout_multipliers k = m.timeout_multipliers k := by
  simp only [record_operation, update_timeout_multiplier]
  split_ifs <;> simp [hk]

/-- With fewer than 10 records in the type's history,
`_update_timeout_multiplier` is the identity. -/
theorem update_mult_short (m : AdaptiveTimeoutManager) (op : String)
    (h : (m.operation_history op).length < 10) :
    update_timeout_multiplier m op = m := by
  simp only [update_timeout_multiplier]
  rw [if_pos h]

/-- While the recorded type's history is still short (below 10 after the
append), `record_operation` leaves the whole multiplier map untouched. -/
theorem record_operation_mult_self_short (m : AdaptiveTimeoutManager) (o : String)
    (d : ℚ) (s : Bool) (now : ℚ)
    (hlen : (m.operation_history o).length + 1 < 10) :
    (record_operation m o d s now).timeout_multipliers = m.timeout_multipliers := by
  have hp : (pushHistory (m.operation_history o) ⟨d, s, now⟩).length
      = (m.operation_history o).length + 1 :=
    pushHistory_length_short _ _ (by omega)
  unfold record_operation
  rw [update_mult_short]
  dsimp only
  rw [if_pos rfl, hp]
  omega

/-- Number of recorded operations of a given type in a sequence. -/
def countOp (ops : List (String × ℚ × Bool × ℚ)) (op : String) : Nat :=
  (ops.filter (fun o => o.1 == op)).length

/-- As long as fewer than 10 operations of a type have been recorded in
total (existing history plus the sequence still to come), the type's
multiplier is never touched. -/
theorem mult_unchanged_below_ten (ops : List (String × ℚ × Bool × ℚ)) :
    ∀ (m : AdaptiveTimeoutManager) (op : String),
      (m.operation_history op).length + countOp ops op < 10 →
      (applyOps m ops).timeout_multipliers op = m.timeout_multipliers op := by
  induction ops with
  | nil => intro m op _; rfl
  | cons o rest ih =>
    intro m op hlt
    show (applyOps (record_operation m o.1 o.2.1 o.2.2.1 o.2.2.2) rest).timeout_multipliers op
      = m.timeout_multipliers op
    by_cases hop : op = o.1
    · subst hop
      have hcount : countOp (o :: rest) o.1 = countOp rest o.1 + 1 := by
        simp [countOp, List.filter_cons]
      rw [hcount] at hlt
      have hhist : ((record_operation m o.1 o.2.1 o.2.2.1 o.2.2.2).operation_history o.1).length
          = (m.operation_history o.1).length + 1 := by
        rw [record_operation_history_apply, if_pos rfl]
        exact pushHistory_length_short _ _ (by omega)
      rw [ih _ o.1 (by rw [hhist]; omega)]
      exact congrFun (record_operation_mult_self_short m o.1 o.2.1 o.2.2.1 o.2.2.2
        (by omega)) o.1
    · have hne : (o.1 == op) = false := by
        simp only [beq_eq_false_iff_ne, ne_eq]
        exact fun hh => hop hh.symm
      have hcount : countOp (o :: rest) op = countOp rest op := by
        simp [countOp, List.filter_cons, hne]
      rw [hcount] at hlt
      have hhist : (record_operation m o.1 o.2.1 o.2.2.1 o.2.2.2).operation_history op
          = m.operation_history op := by
        rw [record_operation_history_apply, if_neg hop]
      rw [ih _ op (by rw [hhist]; omega)]
      exact record_operation_mult_other m o.1 o.2.1 o.2.2.1 o.2.2.2 op hop

/-- C10: over any sequence of recorded outcomes, every multiplier stays in
[0.5, 2.0], so `get_timeout` stays between half and twice the base timeout of
the operation type; and a type's multiplier is never changed before 10
operations of that type have been recorded. -/
theorem claim_C10_adaptive_timeout_bounds (cfg : StreamManagerConfig)
    (ops : List (String × ℚ × Bool × ℚ)) (op : String) :
    (0 < baseTimeout cfg op →
      baseTimeout cfg op / 2 ≤ get_timeout cfg (applyOps initTimeoutManager ops) op ∧
      get_timeout cfg (applyOps initTimeoutManager ops) op ≤ 2 * baseTimeout cfg op) ∧
    (countOp ops op < 10 →
      (applyOps initTimeoutManager ops).timeout_multipliers op =
        initTimeoutManager.timeout_multipliers op) := by
  constructor
  · intro hb
    have hok := multOK_applyOps ops initTimeoutManager multOK_init
    rcases hm : (applyOps initTimeoutManager ops).timeout_multipliers op with _ | v
    · simp only [get_timeout, hm, Option.getD_none, mul_one]
      constructor <;> linarith
    · obtain ⟨hv1, hv2⟩ := hok op v hm
      simp only [get_timeout, hm, Option.getD_some]
      constructor
      · have := mul_le_mul_of_nonneg_left hv1 hb.le
        linarith
      · have := mul_le_mul_of_nonneg_left hv2 hb.le
        linarith
  · intro hc
    apply mult_unchanged_below_ten
    have h0 : (initTimeoutManager.operation_history op).length = 0 := rfl
    rw [h0]
    omega

/-- Witness for C10 on the health-check operation type with the default
configuration and the empty recording sequence. -/
theorem claim_C10_adaptive_timeout_bounds_witness :
    (0 < baseTimeout defaultConfig "health_check") ∧
    (baseTimeout defaultConfig "health_check" / 2 ≤
        get_timeout defaultConfig (applyOps initTimeoutManager []) "health_check" ∧
      get_timeout defaultConfig (applyOps initTimeoutManager []) "health_check" ≤
        2 * baseTimeout defaultConfig "health_check") ∧
    (applyOps initTimeoutManager []).timeout_multipliers "health_check" =
      initTimeoutManager.timeout_multipliers "health_check" := by
  have hb : (0 : ℚ) < baseTimeout defaultConfig "health_check" := by
    have h5 : baseTimeout defaultConfig "health_check" = 5 := by rfl
    rw [h5]
    norm_num
  exact ⟨hb, (claim_C10_adaptive_timeout_bounds defaultConfig [] "health_check").1 hb,
    (claim_C10_adaptive_timeout_bounds defaultConfig [] "health_check").2 (by decide)⟩

/-- A worker already at DONE stays at DONE through any `shutdownWorker`
step. -/
theorem shutdownWorker_phases_done (s : SupervisorState) (u w : String)
    (h : s.phases w = TermPhase.DONE) :
    (shutdownWorker s u).phases w = TermPhase.DONE := by
  unfold shutdownWorker
  split_ifs with h1
  · exact h
  · dsimp only
    by_cases hw : w = u
    · simp [hw]
    · simp [hw, h]

/-- `shutdownWorker` never touches the kill counter of a different
worker. -/
theorem shutdownWorker_kills_other (s : SupervisorState) (u w : String)
    (hw : ¬ w = u) : (shutdownWorker s u).kills w = s.kills w := by
  unfold shutdownWorker
  split_ifs <;> simp [hw]

/-- `shutdownWorker` never touches the phase of a different worker. -/
theorem shutdownWorker_phases_other (s : SupervisorState) (u w : String)
    (hw : ¬ w = u) : (shutdownWorker s u).phases w = s.phases w := by
  unfold shutdownWorker
  split_ifs
  · rfl
  · simp [hw]

/-- A worker at DONE receives no further kill attempts from any
`shutdownWorker` step. -/
theorem shutdownWorker_kills_done (s : SupervisorState) (w : String)
    (h : s.phases w = TermPhase.DONE) (u : String) :
    (shutdownWorker s u).kills w = s.kills w := by
  unfold shutdownWorker
  split_ifs with h1
  · rfl
  · by_cases hw : w = u
    · subst hw; exact absurd h h1
    · simp [hw]

/-- Driving any list of workers preserves DONE and adds no kill attempts to
a worker already DONE. -/
theorem foldl_kills_phases_done (l : List String) :
    ∀ (s : SupervisorState) (w : String), s.phases w = TermPhase.DONE →
      (l.foldl shutdownWorker s).kills w = s.kills w ∧
      (l.foldl shutdownWorker s).phases w = TermPhase.DONE := by
  induction l with
  | nil => intro s w h; exact ⟨rfl, h⟩
  | cons u rest ih =>
    intro s w h
    rw [List.foldl_cons]
    have hstep := shutdownWorker_phases_done s u w h
    obtain ⟨hk, hp⟩ := ih (shutdownWorker s u) w hstep
    exact ⟨by rw [hk, shutdownWorker_kills_done s w h u], hp⟩

/-- Every worker in the driven list ends at DONE. -/
theorem foldl_phases_mem (l : List String) :
    ∀ (s : SupervisorState) (w : String), w ∈ l →
      (l.foldl shutdownWorker s).phases w = TermPhase.DONE := by
  induction l with
  | nil => intro s w h; cases h
  | cons u rest ih =>
    intro s w hw
    by_cases hwu : w = u
    · subst hwu
      have hstep : (shutdownWorker s w).phases w = TermPhase.DONE := by
        unfold shutdownWorker
        split_ifs with h1
        · exact h1
        · simp
      exact (foldl_kills_phases_done rest (shutdownWorker s w) w hstep).2
    · have hw' : w ∈ rest := by
        rcases List.mem_cons.mp hw with h | h
        · exact absurd h hwu
        · exact h
      exact ih (shutdownWorker s u) w hw'

/-- A worker of the driven list not yet DONE receives exactly one kill
attempt. -/
theorem foldl_kills_once (l : List String) :
    ∀ (s : SupervisorState) (w : String), w ∈ l → s.phases w ≠ TermPhase.DONE →
      (l.foldl shutdownWorker s).kills w = s.kills w + 1 := by
  induction l with
  | nil => intro s w h; cases h
  | cons u rest ih =>
    intro s w hw hnd
    rw [List.foldl_cons]
    by_cases hwu : w = u
    · subst hwu
      have hstep_k : (shutdownWorker s w).kills w = s.kills w + 1 := by
        unfold shutdownWorker
        rw [if_neg hnd]
        simp
      have hstep_p : (shutdownWorker s w).phases w = TermPhase.DONE := by
        unfold shutdownWorker
        rw [if_neg hnd]
        simp
      rw [(foldl_kills_phases_done rest (shutdownWorker s w) w hstep_p).1, hstep_k]
    · have hw' : w ∈ rest := by
        rcases List.mem_cons.mp hw with h | h
        · exact absurd h hwu
        · exact h
      rw [ih (shutdownWorker s u) w hw'
        (by rw [shutdownWorker_phases_other s u w hwu]; exact hnd)]
      rw [shutdownWorker_kills_other s u w hwu]

/-- `shutdownWorker` always erases the worker from the table. -/
theorem shutdownWorker_table (s : SupervisorState) (u : String) :
    (shutdownWorker s u).table = s.table.erase u := by
  unfold shutdownWorker
  split_ifs <;> rfl

/-- Driving a list of workers erases each of them from the table in
order. -/
theorem foldl_table_erase (l : List String) :
    ∀ s : SupervisorState, (l.foldl shutdownWorker s).table = l.foldl List.erase s.table := by
  induction l with
  | nil => intro s; rfl
  | cons u rest ih =>
    intro s
    show (rest.foldl shutdownWorker (shutdownWorker s u)).table = _
    rw [ih, shutdownWorker_table]
    rfl

/-- Erasing every element of a list from itself empties it. -/
theorem foldl_erase_self (l : List String) : l.foldl List.erase l = [] := by
  induction l with
  | nil => rfl
  | cons a t ih =>
    show List.foldl List.erase ((a :: t).erase a) t = []
    rw [List.erase_cons_head]
    exact ih

/-- After `shutdownAll` the worker table is empty. -/
theorem shutdownAll_table (s : SupervisorState) : (shutdownAll s).table = [] := by
  unfold shutdownAll
  rw [foldl_table_erase]
  exact foldl_erase_self s.table

/-- Projecting the shutdown trace onto one worker commutes with `scanl`: the
worker's observed phases are the scan of the per-worker step function. -/
theorem scanl_project (evs : List (String × TermPhase)) :
    ∀ (s0 : String → TermPhase) (w : String),
      (evs.scanl applyPhaseEvent s0).map (fun s => s w)
        = evs.scanl (fun p e => if w = e.1 then e.2 else p) (s0 w) := by
  induction evs with
  | nil => intro s0 w; simp [List.scanl_nil]
  | cons e rest ih =>
    intro s0 w
    rw [List.scanl_cons, List.scanl_cons]
    simp only [List.singleton_append, List.map_cons]
    rw [ih]
    rfl

/-- A scan always starts with its initial value. -/
theorem scanl_head_cons {α β : Type} (g : β → α → β) (b : β) (l : List α) :
    ∃ t, l.scanl g b = b :: t := by
  cases l with
  | nil => exact ⟨[], by simp [List.scanl_nil]⟩
  | cons a l' =>
    refine ⟨l'.scanl g (g b a), ?_⟩
    rw [List.scanl_cons]
    rfl

/-- The phases assigned to one worker by an event sequence, in order. -/
def projPhases (evs : List (String × TermPhase)) (w : String) : List TermPhase :=
  (evs.filter (fun e => e.1 == w)).map Prod.snd

/-- If a worker's assigned phases form a forward chain starting from its
current phase, then its observed phase sequence along the scan is a forward
chain. -/
theorem chain_scanl_of_proj (w : String) :
    ∀ (evs : List (String × TermPhase)) (cur : TermPhase),
      List.Chain' phaseLe (cur :: projPhases evs w) →
      List.Chain' phaseLe (evs.scanl (fun p e => if w = e.1 then e.2 else p) cur) := by
  intro evs
  induction evs with
  | nil => intro cur _; simp [List.scanl_nil]
  | cons e rest ih =>
    intro cur h
    rw [List.scanl_cons]
    simp only [List.singleton_append]
    by_cases hw : w = e.1
    · have hkeep : (e.1 == w) = true := by
        simp only [beq_iff_eq]
        exact hw.symm
      have hproj : projPhases (e :: rest) w = e.2 :: projPhases rest w := by
        simp [projPhases, List.filter_cons, hkeep]
      rw [hproj] at h
      obtain ⟨h1, h2⟩ := List.chain'_cons.mp h
      rw [if_pos hw]
      obtain ⟨t, ht⟩ := scanl_head_cons (fun p e => if w = e.1 then e.2 else p) e.2 rest
      rw [ht]
      refine List.chain'_cons.mpr ⟨h1, ?_⟩
      rw [← ht]
      exact ih e.2 h2
    · have hdrop : (e.1 == w) = false := by
        simp only [beq_eq_false_iff_ne, ne_eq]
        exact fun hh => hw hh.symm
      have hproj : projPhases (e :: rest) w = projPhases rest w := by
        simp [projPhases, List.filter_cons, hdrop]
      rw [hproj] at h
      rw [if_neg hw]
      obtain ⟨t, ht⟩ := scanl_head_cons (fun p e => if w = e.1 then e.2 else p) cur rest
      rw [ht]
      refine List.chain'_cons.mpr ⟨le_refl _, ?_⟩
      rw [← ht]
      exact ih cur h

/-- Projection distributes over event concatenation. -/
theorem projPhases_append (l1 l2 : List (String × TermPhase)) (w : String) :
    projPhases (l1 ++ l2) w = projPhases l1 w ++ projPhases l2 w := by
  simp [projPhases, List.filter_append]

/-- A worker outside the fleet receives no mark events. -/
theorem projPhases_notmem_mark (fleet : List String) (w : String) (hw : w ∉ fleet) :
    projPhases (markEvents fleet) w = [] := by
  induction fleet with
  | nil => rfl
  | cons a rest ih =>
    have hdrop : (a == w) = false := by
      simp only [beq_eq_false_iff_ne, ne_eq]
      intro hh
      subst hh
      exact hw (List.mem_cons_self a rest)
    show projPhases ((a, TermPhase.MARKED) :: markEvents rest) w = []
    simp only [projPhases, List.filter_cons]
    rw [if_neg (by simp [hdrop])]
    exact ih (fun hh => hw (List.mem_cons_of_mem a hh))

/-- A fleet member with no duplicates receives exactly one mark event. -/
theorem projPhases_mem_mark (fleet : List String) (w : String) (hnd : fleet.Nodup)
    (hw : w ∈ fleet) : projPhases (markEvents fleet) w = [TermPhase.MARKED] := by
  induction fleet with
  | nil => cases hw
  | cons a rest ih =>
    obtain ⟨ha, hnd'⟩ := List.nodup_cons.mp hnd
    show projPhases ((a, TermPhase.MARKED) :: markEvents rest) w = _
    by_cases hwa : w = a
    · subst hwa
      have hrest : projPhases (markEvents rest) w = [] := projPhases_notmem_mark rest w ha
      simp only [projPhases, List.filter_cons] at hrest ⊢
      rw [if_pos (by simp)]
      rw [List.map_cons, hrest]
    · have hdrop : (a == w) = false := by
        simp only [beq_eq_false_iff_ne, ne_eq]
        exact fun hh => hwa hh.symm
      have hw' : w ∈ rest := by
        rcases List.mem_cons.mp hw with h | h
        · exact absurd h hwa
        · exact h
      simp only [projPhases, List.filter_cons]
      rw [if_neg (by simp [hdrop])]
      exact ih hnd' hw'

/-- Every drive event of a worker carries that worker's id. -/
theorem driveEvents_fst (acks : String → Bool) (u : String) :
    ∀ e ∈ driveEvents acks u, e.1 = u := by
  intro e he
  unfold driveEvents at he
  by_cases ha : acks u
  · rw [if_pos ha] at he
    simp at he
    rcases he with rfl | rfl <;> rfl
  · rw [if_neg ha] at he
    simp at he
    rcases he with rfl | rfl | rfl <;> rfl

/-- The drive block of a different worker contributes nothing to a worker's
projection. -/
theorem projPhases_driveEvents_other (acks : String → Bool) (u w : String)
    (hw : ¬ u = w) : projPhases (driveEvents acks u) w = [] := by
  unfold projPhases
  rw [List.filter_eq_nil_iff.mpr, List.map_nil]
  intro e he
  have := driveEvents_fst acks u e he
  simp [this, hw]

/-- A worker's own drive block projects to exactly its assigned phases. -/
theorem projPhases_driveEvents_self (acks : String → Bool) (w : String) :
    projPhases (driveEvents acks w) w = (driveEvents acks w).map Prod.snd := by
  unfold projPhases driveEvents
  by_cases ha : acks w
  · rw [if_pos ha]
    simp [List.filter_cons]
  · rw [if_neg ha]
    simp [List.filter_cons]

/-- A worker outside the fleet receives no drive events. -/
theorem projPhases_driveAll_notmem (acks : String → Bool) (fleet : List String)
    (w : String) (hw : w ∉ fleet) : projPhases (driveAllEvents acks fleet) w = [] := by
  induction fleet with
  | nil => rfl
  | cons a rest ih =>
    show projPhases (driveEvents acks a ++ driveAllEvents acks rest) w = []
    rw [projPhases_append,
      projPhases_driveEvents_other acks a w
        (fun hh => hw (by rw [← hh]; exact List.mem_cons_self a rest)),
      ih (fun hh => hw (List.mem_cons_of_mem a hh))]
    rfl

/-- A fleet member with no duplicates receives exactly its own drive block. -/
theorem projPhases_driveAll_mem (acks : String → Bool) (fleet : List String)
    (w : String) (hnd : fleet.Nodup) (hw : w ∈ fleet) :
    projPhases (driveAllEvents acks fleet) w = (driveEvents acks w).map Prod.snd := by
  induction fleet with
  | nil => cases hw
  | cons a rest ih =>
    obtain ⟨ha, hnd'⟩ := List.nodup_cons.mp hnd
    show projPhases (driveEvents acks a ++ driveAllEvents acks rest) w = _
    rw [projPhases_append]
    by_cases hwa : w = a
    · subst hwa
      rw [projPhases_driveEvents_self, projPhases_driveAll_notmem acks rest w ha]
      rw [List.append_nil]
    · have hw' : w ∈ rest := by
        rcases List.mem_cons.mp hw with h | h
        · exact absurd h hwa
        · exact h
      rw [projPhases_driveEvents_other acks a w (fun hh => hwa hh.symm),
        ih hnd' hw']
      rfl

/-- A property preserved by every event of a sequence holds at every state of
the scan. -/
theorem scanl_mem_invariant {P : (String → TermPhase) → Prop} :
    ∀ (evs : List (String × TermPhase)) (s0 : String → TermPhase),
      P s0 → (∀ s e, e ∈ evs → P s → P (applyPhaseEvent s e)) →
      ∀ s ∈ List.scanl applyPhaseEvent s0 evs, P s := by
  intro evs
  induction evs with
  | nil =>
    intro s0 h0 _ s hs
    rw [List.scanl_nil] at hs
    rcases List.mem_singleton.mp hs with rfl
    exact h0
  | cons e rest ih =>
    intro s0 h0 hstep s hs
    rw [List.scanl_cons] at hs
    simp only [List.singleton_append] at hs
    rcases List.mem_cons.mp hs with rfl | hs'
    · exact h0
    · exact ih (applyPhaseEvent s0 e) (hstep s0 e (List.mem_cons_self e rest) h0)
        (fun s' e' he' => hstep s' e' (List.mem_cons_of_mem e he')) s hs'

/-- A state of the scan over a concatenation belongs to the scan of the
first part or to the scan of the second part started from the fold of the
first. -/
theorem scanl_append_mem (l2 : List (String × TermPhase)) :
    ∀ (l1 : List (String × TermPhase)) (b : String → TermPhase) (s : String → TermPhase),
      s ∈ List.scanl applyPhaseEvent b (l1 ++ l2) →
      s ∈ List.scanl applyPhaseEvent b l1 ∨
        s ∈ List.scanl applyPhaseEvent (List.foldl applyPhaseEvent b l1) l2 := by
  intro l1
  induction l1 with
  | nil =>
    intro b s hs
    right
    simpa using hs
  | cons a t ih =>
    intro b s hs
    rw [List.cons_append, List.scanl_cons] at hs
    simp only [List.singleton_append] at hs
    rcases List.mem_cons.mp hs with rfl | hs'
    · left
      rw [List.scanl_cons]
      simp only [List.singleton_append]
      exact List.mem_cons_self _ _
    · rcases ih (applyPhaseEvent b a) s hs' with h | h
      · left
        rw [List.scanl_cons]
        simp only [List.singleton_append]
        exact List.mem_cons_of_mem _ h
      · right
        rw [List.foldl_cons]
        exact h

/-- After the mark phase every fleet member is at MARKED and everyone else
is untouched. -/
theorem foldl_markEvents (fleet : List String) :
    ∀ (s0 : String → TermPhase) (w : String),
      List.foldl applyPhaseEvent s0 (markEvents fleet) w
        = if w ∈ fleet then TermPhase.MARKED else s0 w := by
  induction fleet with
  | nil => intro s0 w; simp [markEvents]
  | cons a rest ih =>
    intro s0 w
    show List.foldl applyPhaseEvent s0 ((a, TermPhase.MARKED) :: markEvents rest) w = _
    rw [List.foldl_cons, ih]
    by_cases h1 : w ∈ rest
    · simp [h1, List.mem_cons]
    · by_cases h2 : w = a
      · simp [h1, h2, applyPhaseEvent, List.mem_cons]
      · simp [h1, h2, applyPhaseEvent, List.mem_cons]

/-- Every mark event assigns MARKED. -/
theorem markEvents_snd (fleet : List String) :
    ∀ e ∈ markEvents fleet, e.2 = TermPhase.MARKED := by
  intro e he
  obtain ⟨x, _, rfl⟩ := List.mem_map.mp he
  rfl

/-- Every drive event assigns a phase at or beyond MARKED. -/
theorem driveAllEvents_snd (acks : String → Bool) :
    ∀ (fleet : List String), ∀ e ∈ driveAllEvents acks fleet,
      phaseLe TermPhase.MARKED e.2 := by
  intro fleet
  induction fleet with
  | nil => intro e he; cases he
  | cons a rest ih =>
    intro e he
    rcases List.mem_append.mp he with h | h
    · unfold driveEvents at h
      by_cases ha : acks a
      · rw [if_pos ha] at h
        simp at h
        rcases h with rfl | rfl <;> (dsimp only; decide)
      · rw [if_neg ha] at h
        simp at h
        rcases h with rfl | rfl | rfl <;> (dsimp only; decide)
    · exact ih e h

/-- Along the fleet-shutdown trace, each worker's observed phase sequence is
a forward chain. -/
theorem shutdownTrace_proj_chain (fleet : List String) (acks : String → Bool)
    (hnd : fleet.Nodup) (w : String) :
    List.Chain' phaseLe ((shutdownTrace fleet acks).map (fun s => s w)) := by
  unfold shutdownTrace
  rw [scanl_project]
  apply chain_scanl_of_proj
  show List.Chain' phaseLe (TermPhase.NONE :: projPhases (shutdownEvents fleet acks) w)
  by_cases hw : w ∈ fleet
  · rw [shutdownEvents, projPhases_append, projPhases_mem_mark fleet w hnd hw,
      projPhases_driveAll_mem acks fleet w hnd hw]
    unfold driveEvents
    by_cases ha : acks w
    · rw [if_pos ha]
      simp only [List.map_cons, List.map_nil, List.singleton_append, List.cons_append,
        List.nil_append]
      simp [List.chain'_cons, List.chain'_singleton, phaseLe, phaseRank]
    · rw [if_neg ha]
      simp only [List.map_cons, List.map_nil, List.singleton_append, List.cons_append,
        List.nil_append]
      simp [List.chain'_cons, List.chain'_singleton, phaseLe, phaseRank]
  · rw [shutdownEvents, projPhases_append, projPhases_notmem_mark fleet w hw,
      projPhases_driveAll_notmem acks fleet w hw]
    simp

/-- In any state of the fleet-shutdown trace in which some worker has
reached SIGNALED (or beyond), every fleet member is already at MARKED (or
beyond): the whole table is marked before any worker is signalled. -/
theorem shutdownTrace_mark_first (fleet : List String) (acks : String → Bool) :
    ∀ s ∈ shutdownTrace fleet acks,
      (∃ w, phaseLe TermPhase.SIGNALED (s w)) →
      ∀ w ∈ fleet, phaseLe TermPhase.MARKED (s w) := by
  intro s hs hsig w hw
  unfold shutdownTrace shutdownEvents at hs
  rcases scanl_append_mem (driveAllEvents acks fleet) (markEvents fleet) _ s hs with h | h
  · exfalso
    obtain ⟨w0, hw0⟩ := hsig
    have hinv : ∀ s' ∈ List.scanl applyPhaseEvent (fun _ => TermPhase.NONE) (markEvents fleet),
        ∀ w', phaseRank (s' w') ≤ 1 := by
      intro s' hs'
      refine scanl_mem_invariant (P := fun st => ∀ w', phaseRank (st w') ≤ 1)
        (markEvents fleet) _ ?_ ?_ s' hs'
      · intro w'
        simp [phaseRank]
      · intro st e he hP w'
        have he2 := markEvents_snd fleet e he
        simp only [applyPhaseEvent]
        by_cases hww : w' = e.1
        · rw [if_pos hww, he2]
          decide
        · rw [if_neg hww]
          exact hP w'
    have h1 := hinv s h w0
    unfold phaseLe at hw0
    have h2 : phaseRank TermPhase.SIGNALED = 2 := rfl
    omega
  · have hstart : ∀ w' ∈ fleet, phaseLe TermPhase.MARKED
        (List.foldl applyPhaseEvent (fun _ => TermPhase.NONE) (markEvents fleet) w') := by
      intro w' hw'
      rw [foldl_markEvents, if_pos hw']
      exact le_refl _
    have hinv : ∀ s' ∈ List.scanl applyPhaseEvent
        (List.foldl applyPhaseEvent (fun _ => TermPhase.NONE) (markEvents fleet))
        (driveAllEvents acks fleet), ∀ w' ∈ fleet, phaseLe TermPhase.MARKED (s' w') := by
      intro s' hs'
      refine scanl_mem_invariant
        (P := fun st => ∀ w' ∈ fleet, phaseLe TermPhase.MARKED (st w'))
        (driveAllEvents acks fleet) _ hstart ?_ s' hs'
      intro st e he hP w' hw'
      simp only [applyPhaseEvent]
      by_cases hww : w' = e.1
      · rw [if_pos hww]
        exact driveAllEvents_snd acks fleet e he
      · rw [if_neg hww]
        exact hP w' hw'
    exact hinv s h w hw

/-- C5: over the fleet-shutdown trace, every worker's observed termination
phases are non-decreasing in the order NONE < MARKED < SIGNALED < FORCED <
DONE (in particular SIGNALED is never observed after FORCED), and in any
state where some worker has entered SIGNALED or beyond, the MARKED phase has
already been applied to every worker of the table. -/
theorem claim_C5_phase_monotonic (fleet : List String) (acks : String → Bool)
    (hnd : fleet.Nodup) :
    (∀ w, List.Chain' phaseLe ((shutdownTrace fleet acks).map (fun s => s w))) ∧
    (∀ s ∈ shutdownTrace fleet acks,
      (∃ w, phaseLe TermPhase.SIGNALED (s w)) →
      ∀ w ∈ fleet, phaseLe TermPhase.MARKED (s w)) :=
  ⟨fun w => shutdownTrace_proj_chain fleet acks hnd w,
    shutdownTrace_mark_first fleet acks⟩

/-- Witness for C5 on a two-worker fleet in which one worker acknowledges
the TERMINATE and the other must be forced. -/
theorem claim_C5_phase_monotonic_witness :
    (["a", "b"] : List String).Nodup ∧
    ((∀ w, List.Chain' phaseLe
        ((shutdownTrace ["a", "b"] (fun u => u == "a")).map (fun s => s w))) ∧
      (∀ s ∈ shutdownTrace ["a", "b"] (fun u => u == "a"),
        (∃ w, phaseLe TermPhase.SIGNALED (s w)) →
        ∀ w ∈ (["a", "b"] : List String), phaseLe TermPhase.MARKED (s w))) :=
  ⟨by decide, claim_C5_phase_monotonic ["a", "b"] (fun u => u == "a") (by decide)⟩

/-- One `shutdownAll` call's work as a sequence of per-worker termination
steps: the call snapshots a list of workers and drives them in order.
`shutdownAll s` is exactly `runSteps s s.table`. -/
def runSteps (s : SupervisorState) (steps : List String) : SupervisorState :=
  steps.foldl shutdownWorker s

/-- An interleaving of the step sequences of two concurrent `shutdownAll`
calls: `IsMerge l1 l2 l` holds when `l` interleaves `l1` and `l2` keeping
each call's own order. -/
inductive IsMerge : List String → List String → List String → Prop
  | nil : IsMerge [] [] []
  | left {a : String} {t1 l2 t : List String} :
      IsMerge t1 l2 t → IsMerge (a :: t1) l2 (a :: t)
  | right {a : String} {l1 t2 t : List String} :
      IsMerge l1 t2 t → IsMerge l1 (a :: t2) (a :: t)

/-- Every step of the first call occurs in the interleaving. -/
theorem IsMerge.mem_left {l1 l2 l : List String} (h : IsMerge l1 l2 l) :
    ∀ x ∈ l1, x ∈ l := by
  induction h with
  | nil => intro x hx; cases hx
  | left _ ih =>
    intro x hx
    rcases List.mem_cons.mp hx with rfl | hx'
    · exact List.mem_cons_self _ _
    · exact List.mem_cons_of_mem _ (ih x hx')
  | right _ ih =>
    intro x hx
    exact List.mem_cons_of_mem _ (ih x hx)

/-- Every step of the interleaving comes from one of the two calls. -/
theorem IsMerge.mem_sub {l1 l2 l : List String} (h : IsMerge l1 l2 l) :
    ∀ x ∈ l, x ∈ l1 ∨ x ∈ l2 := by
  induction h with
  | nil => intro x hx; cases hx
  | left _ ih =>
    intro x hx
    rcases List.mem_cons.mp hx with rfl | hx'
    · exact Or.inl (List.mem_cons_self _ _)
    · rcases ih x hx' with h' | h'
      · exact Or.inl (List.mem_cons_of_mem _ h')
      · exact Or.inr h'
  | right _ ih =>
    intro x hx
    rcases List.mem_cons.mp hx with rfl | hx'
    · exact Or.inr (List.mem_cons_self _ _)
    · rcases ih x hx' with h' | h'
      · exact Or.inl h'
      · exact Or.inr (List.mem_cons_of_mem _ h')

/-- Workers absent from a step sequence keep their phase and kill count. -/
theorem foldl_not_mem_untouched (l : List String) :
    ∀ (s : SupervisorState) (w : String), w ∉ l →
      (l.foldl shutdownWorker s).phases w = s.phases w ∧
      (l.foldl shutdownWorker s).kills w = s.kills w := by
  induction l with
  | nil => intro s w _; exact ⟨rfl, rfl⟩
  | cons a t ih =>
    intro s w hw
    have hwa : ¬ w = a := fun hh => hw (by rw [hh]; exact List.mem_cons_self a t)
    have hwt : w ∉ t := fun hh => hw (List.mem_cons_of_mem a hh)
    rw [List.foldl_cons]
    obtain ⟨h1, h2⟩ := ih (shutdownWorker s a) w hwt
    exact ⟨by rw [h1, shutdownWorker_phases_other s a w hwa],
      by rw [h2, shutdownWorker_kills_other s a w hwa]⟩

/-- Erasure only removes elements. -/
theorem mem_foldl_erase (l : List String) :
    ∀ (t : List String) (x : String), x ∈ List.foldl List.erase t l → x ∈ t := by
  induction l with
  | nil => intro t x h; exact h
  | cons a l' ih =>
    intro t x h
    rw [List.foldl_cons] at h
    exact List.mem_of_mem_erase (ih (t.erase a) x h)

/-- A step sequence can only shrink the worker table. -/
theorem runSteps_table_subset (l : List String) (s : SupervisorState) (x : String)
    (h : x ∈ (runSteps s l).table) : x ∈ s.table := by
  unfold runSteps at h
  rw [foldl_table_erase] at h
  exact mem_foldl_erase l s.table x h

/-- Erasing the prefix of a concatenation from it leaves the suffix. -/
theorem foldl_erase_append (p1 : List String) :
    ∀ r1 : List String, List.foldl List.erase (p1 ++ r1) p1 = r1 := by
  induction p1 with
  | nil => intro r1; rfl
  | cons a t ih =>
    intro r1
    rw [List.cons_append, List.foldl_cons, List.erase_cons_head]
    exact ih r1

/-- Erasing a superlist of a duplicate-free list from it empties it. -/
theorem foldl_erase_nil_of_subset (l : List String) :
    ∀ t : List String, t.Nodup → (∀ x ∈ t, x ∈ l) →
      List.foldl List.erase t l = [] := by
  induction l with
  | nil =>
    intro t _ hsub
    have ht : t = [] :=
      List.eq_nil_iff_forall_not_mem.mpr
        (fun x hx => absurd (hsub x hx) (List.not_mem_nil x))
    rw [ht]
    rfl
  | cons a l' ih =>
    intro t hnd hsub
    rw [List.foldl_cons]
    apply ih (t.erase a) (hnd.erase a)
    intro x hx
    have hxa : x ≠ a := ((List.Nodup.mem_erase_iff hnd).mp hx).1
    have hxt : x ∈ t := List.mem_of_mem_erase hx
    rcases List.mem_cons.mp (hsub x hxt) with h | h
    · exact absurd h hxa
    · exact h

/-- Two supervisor states with the same table, phases and kill counts are
equal. -/
theorem supervisorState_ext (a b : SupervisorState) (h1 : a.table = b.table)
    (h2 : a.phases = b.phases) (h3 : a.kills = b.kills) : a = b := by
  cases a
  cases b
  simp only [SupervisorState.mk.injEq]
  exact ⟨h1, h2, h3⟩

/-- C6: `shutdownAll` is idempotent, also under a concurrent second call.
The first call snapshots the table `s0.table = p1 ++ r1` and has executed
the prefix `p1` when the second call starts; the second call snapshots the
current table and the two calls' remaining steps interleave arbitrarily
(`IsMerge`).  Every such execution ends in exactly the final state of a
single call, with each worker of the table that was not yet DONE reaching
DONE with exactly one kill attempt; a strictly-sequential second call is the
special case `p1 = s0.table`, `r1 = merged = []`. -/
theorem claim_C6_shutdownAll_idem_concurrent (s0 : SupervisorState)
    (p1 r1 merged : List String) (w : String)
    (hnd : s0.table.Nodup)
    (hsplit : s0.table = p1 ++ r1)
    (hmerge : IsMerge r1 (runSteps s0 p1).table merged) :
    shutdownAll (shutdownAll s0) = shutdownAll s0 ∧
    runSteps (runSteps s0 p1) merged = shutdownAll s0 ∧
    (w ∈ s0.table → s0.phases w ≠ TermPhase.DONE →
      (runSteps (runSteps s0 p1) merged).kills w = s0.kills w + 1 ∧
      (runSteps (runSteps s0 p1) merged).phases w = TermPhase.DONE) := by
  have happ : runSteps (runSteps s0 p1) merged = runSteps s0 (p1 ++ merged) := by
    unfold runSteps
    rw [List.foldl_append]
  have hsub_steps : ∀ x ∈ p1 ++ merged, x ∈ s0.table := by
    intro x hx
    rcases List.mem_append.mp hx with h | h
    · rw [hsplit]
      exact List.mem_append.mpr (Or.inl h)
    · rcases hmerge.mem_sub x h with h' | h'
      · rw [hsplit]
        exact List.mem_append.mpr (Or.inr h')
      · exact runSteps_table_subset p1 s0 x h'
  have hmem_steps : ∀ x ∈ s0.table, x ∈ p1 ++ merged := by
    intro x hx
    rw [hsplit] at hx
    rcases List.mem_append.mp hx with h | h
    · exact List.mem_append.mpr (Or.inl h)
    · exact List.mem_append.mpr (Or.inr (hmerge.mem_left x h))
  have htable : (runSteps s0 (p1 ++ merged)).table = [] := by
    unfold runSteps
    rw [foldl_table_erase, List.foldl_append, hsplit, foldl_erase_append]
    apply foldl_erase_nil_of_subset
    · exact List.Nodup.of_append_right (hsplit ▸ hnd)
    · intro x hx
      exact hmerge.mem_left x hx
  have hphases : ∀ w', (runSteps s0 (p1 ++ merged)).phases w' = (shutdownAll s0).phases w' := by
    intro w'
    show ((p1 ++ merged).foldl shutdownWorker s0).phases w'
      = (s0.table.foldl shutdownWorker s0).phases w'
    by_cases hw' : w' ∈ s0.table
    · rw [foldl_phases_mem (p1 ++ merged) s0 w' (hmem_steps w' hw'),
        foldl_phases_mem s0.table s0 w' hw']
    · have h1 := foldl_not_mem_untouched (p1 ++ merged) s0 w'
        (fun hh => hw' (hsub_steps w' hh))
      have h2 := foldl_not_mem_untouched s0.table s0 w' hw'
      rw [h1.1, h2.1]
  have hkills : ∀ w', (runSteps s0 (p1 ++ merged)).kills w' = (shutdownAll s0).kills w' := by
    intro w'
    show ((p1 ++ merged).foldl shutdownWorker s0).kills w'
      = (s0.table.foldl shutdownWorker s0).kills w'
    by_cases hw' : w' ∈ s0.table
    · by_cases hd : s0.phases w' = TermPhase.DONE
      · rw [(foldl_kills_phases_done (p1 ++ merged) s0 w' hd).1,
          (foldl_kills_phases_done s0.table s0 w' hd).1]
      · rw [foldl_kills_once (p1 ++ merged) s0 w' (hmem_steps w' hw') hd,
          foldl_kills_once s0.table s0 w' hw' hd]
    · have h1 := foldl_not_mem_untouched (p1 ++ merged) s0 w'
        (fun hh => hw' (hsub_steps w' hh))
      have h2 := foldl_not_mem_untouched s0.table s0 w' hw'
      rw [h1.2, h2.2]
  have hmain : runSteps s0 (p1 ++ merged) = shutdownAll s0 :=
    supervisorState_ext _ _ (by rw [htable, shutdownAll_table]) (funext hphases)
      (funext hkills)
  have hidem : shutdownAll (shutdownAll s0) = shutdownAll s0 := by
    show (shutdownAll s0).table.foldl shutdownWorker (shutdownAll s0) = shutdownAll s0
    rw [shutdownAll_table]
    rfl
  refine ⟨hidem, happ.trans hmain, fun hw hnd2 => ⟨?_, ?_⟩⟩
  · rw [happ, hmain]
    exact foldl_kills_once s0.table s0 w hw hnd2
  · rw [happ, hmain]
    exact foldl_phases_mem s0.table s0 w hw

/-- A two-worker supervisor state before shutdown. -/
def sampleSup2 : SupervisorState :=
  { table := ["a", "b"], phases := fun _ => TermPhase.NONE, kills := fun _ => 0 }

/-- Witness for C6 with genuine overlap: the first call has terminated worker
`a` when the second call snapshots the table (now `["b"]`), and both calls
then attempt worker `b` — it is still killed exactly once and the final
state is that of a single call. -/
theorem claim_C6_shutdownAll_idem_concurrent_witness :
    shutdownAll (shutdownAll sampleSup2) = shutdownAll sampleSup2 ∧
    runSteps (runSteps sampleSup2 ["a"]) ["b", "b"] = shutdownAll sampleSup2 ∧
    ((runSteps (runSteps sampleSup2 ["a"]) ["b", "b"]).kills "b"
        = sampleSup2.kills "b" + 1 ∧
      (runSteps (runSteps sampleSup2 ["a"]) ["b", "b"]).phases "b" = TermPhase.DONE) := by
  have hm : IsMerge ["b"] (runSteps sampleSup2 ["a"]).table ["b", "b"] := by
    have ht : (runSteps sampleSup2 ["a"]).table = ["b"] := rfl
    rw [ht]
    exact IsMerge.left (IsMerge.right IsMerge.nil)
  obtain ⟨h1, h2, h3⟩ := claim_C6_shutdownAll_idem_concurrent sampleSup2 ["a"] ["b"]
    ["b", "b"] "b" (by decide) rfl hm
  exact ⟨h1, h2, h3 (by decide) (by decide)⟩
